import Mathlib

/-!
Verification of the `musync` incremental audio-sync engine (src/musync.rs,
src/main.rs) against its natural-language specification.

Modelling conventions:
* Byte/character strings are modelled as `List Char` (`Str`).
* Filesystem paths are modelled as lists of components (`FPath`); joining and
  splitting on `/` is left implicit, which is faithful for ordinary file
  names (no `/` or NUL inside a component).
* The `FxHashMap`/`FxHashSet` containers are modelled as association lists
  with in-place-overwrite insertion (`ainsert`) and membership-checked append
  (`finsert`); this reproduces the deterministic iteration order of the real
  hash map for identical insertion sequences.
* File contents are an abstract type `C`; the SHA-512-of-first-MiB fingerprint
  (`hash_file`, musync.rs:82) and the external `ffmpeg` transcode are abstract
  functions `hashFn : C → Str` and `transcode : C → C`; equal contents hash
  equally, which is all the proofs use.
* Fallible filesystem / process operations are explicit: a rename whose source
  is missing fails, and an `Oracle` injects spawn failures for `ffmpeg` and
  the `find` invocation of `remove_empty_directories`.
-/

namespace Musync

abbrev Str := List Char

abbrev FPath := List Str

/-- Association-list lookup, modelling `FxHashMap::get` (musync.rs:143). -/
def alookup {κ ν : Type} [DecidableEq κ] : List (κ × ν) → κ → Option ν
  | [], _ => none
  | (k, v) :: rest, key => if key = k then some v else alookup rest key

/-- Association-list insert with overwrite, modelling `FxHashMap::insert`
(musync.rs:42, musync.rs:162): an existing binding for the key is replaced in
place, a fresh key is appended. -/
def ainsert {κ ν : Type} [DecidableEq κ] : List (κ × ν) → κ → ν → List (κ × ν)
  | [], key, v => [(key, v)]
  | (k, w) :: rest, key, v =>
    if key = k then (key, v) :: rest else (k, w) :: ainsert rest key v

/-- Remove a key's binding (used to model `fs::rename` taking the file away
from its old path, musync.rs:147). -/
def aerase {κ ν : Type} [DecidableEq κ] : List (κ × ν) → κ → List (κ × ν)
  | [], _ => []
  | (k, w) :: rest, key =>
    if k = key then aerase rest key else (k, w) :: aerase rest key

/-- Set-insert for the `files : FxHashSet` of expected destination paths
(musync.rs:163): append when absent. -/
def finsert (s : List FPath) (p : FPath) : List FPath :=
  if p ∈ s then s else s ++ [p]

/-- Split a file name at its last `.`: returns `(before, after)` for the last
dot, `none` when the name has no dot.  Helper for the Rust
`Path::extension`/`file_stem` semantics. -/
def lastDotSplit : Str → Option (Str × Str)
  | [] => none
  | c :: rest =>
    match lastDotSplit rest with
    | some (b, a) => some (c :: b, a)
    | none => if c = '.' then some ([], rest) else none

/-- Rust `Path::extension` (musync.rs:133): the part after the last dot,
except that a leading dot (hidden files such as `.musync`) does not begin an
extension. -/
def rustExt (name : Str) : Option Str :=
  match lastDotSplit name with
  | some ([], _) => none
  | some (_, a) => some a
  | none => none

/-- Rust `Path::file_stem`: everything before the last dot, or the whole name
when there is no extension. -/
def rustStem (name : Str) : Str :=
  match lastDotSplit name with
  | some ([], _) => name
  | some (b, _) => b
  | none => name

/-- `PathBuf::with_extension("mp3")` applied to a file name
(musync.rs:141): the stem followed by `.mp3`. -/
def withMp3 (name : Str) : Str := rustStem name ++ '.' :: "mp3".toList

/-- `with_extension("mp3")` on a path: rewrite the final component. -/
def setLastMp3 : FPath → FPath
  | [] => []
  | [n] => [withMp3 n]
  | c :: rest => c :: setLastMp3 rest

/-- `undepthify` (musync.rs:59): keep the first component and the last
component; a single-component path is returned unchanged.  This mirrors
`components.next()` followed by `components.last()` on the remainder. -/
def undepthify : FPath → FPath
  | [] => []
  | [x] => [x]
  | x :: y :: rest => [x, (y :: rest).getLast (List.cons_ne_nil y rest)]

/-- `EXTENSIONS_TO_CONVERT` (musync.rs:14), duplicate `"flac"` included as in
the source. -/
def EXTENSIONS_TO_CONVERT : List Str :=
  ["aiff", "flac", "flac", "ogg", "mod", "xm", "m4a"].map String.toList

/-- `STATE_FILE` (musync.rs:16). -/
def stateFileName : Str := ".musync".toList

/-- `MAX_JOBS` (musync.rs:17). -/
def MAX_JOBS : Nat := 16

/-- Strip one trailing carriage return, as `BufRead::lines` does for a line
that ended in `\r\n`. -/
def stripCR (l : Str) : Str :=
  if l.getLast? = some '\r' then l.dropLast else l

/-- Helper for `rustLines`: `acc` holds the current line reversed. -/
def rustLinesAux : Str → Str → List Str
  | [], acc => if acc = [] then [] else [acc.reverse]
  | c :: rest, acc =>
    if c = '\n' then stripCR acc.reverse :: rustLinesAux rest []
    else rustLinesAux rest (c :: acc)

/-- Rust `BufRead::lines` (used by `read_lines`, musync.rs:20) on a whole
file content: lines are terminated by `'\n'` (stripped, together with a
`'\r'` directly before it); a final unterminated chunk is yielded verbatim. -/
def rustLines (s : Str) : List Str := rustLinesAux s []

/-- Parsing loop of `read_table` (musync.rs:32): each line must be at least
`n` characters long, the first `n` characters are the key and the remainder
the value; bindings go into the map with last-write-wins semantics. -/
def readTableAux (n : Nat) :
    List (Str × Str) → List Str → Except Unit (List (Str × Str))
  | t, [] => .ok t
  | t, l :: rest =>
    if l.length < n then .error ()
    else readTableAux n (ainsert t (l.take n) (l.drop n)) rest

/-- `read_table` (musync.rs:28) applied to the contents of an existing,
readable state file. -/
def readTable (s : Str) (n : Nat) : Except Unit (List (Str × Str)) :=
  readTableAux n [] (rustLines s)

/-- `write_table` (musync.rs:49): one line per entry, the key directly
followed by the value and `writeln!`'s terminating `'\n'`, no separator. -/
def writeTable (t : List (Str × Str)) : Str :=
  t.foldr (fun e acc => e.1 ++ e.2 ++ '\n' :: acc) []

/-- Lower-case hexadecimal digits, the alphabet of `format!("{:x}", …)`
hashes (musync.rs:90). -/
def hexDigits : Str := "0123456789abcdef".toList

/-- A regular file met while walking the source tree (musync.rs:126):
directory components of its relative path, its file name, and its contents
(abstract type `C`). -/
structure SrcFile (C : Type) where
  dirs : List Str
  name : Str
  content : C
deriving DecidableEq

/-- The logged filesystem actions of one run (the `RENAME`/`COPY`/`CONVERT`/
`REMOVE` events of musync.rs). -/
inductive Action
  | copy (rel : FPath)
  | convert (rel : FPath)
  | rename (rel : FPath)
  | remove (rel : FPath)
deriving DecidableEq

/-- The error kinds that abort a run: a rename whose source destination file
is missing (an `io::Error` from `fs::rename`, musync.rs:147), a failed
`ffmpeg` spawn (musync.rs:190), a failed `find` spawn (musync.rs:77). -/
inductive MErr
  | renameMissing
  | convertSpawn
  | findSpawn
deriving DecidableEq

/-- Mutable state of `add_new_files` (musync.rs:114): destination file map,
`new_state`, the expected-file set `files`, the queued `to_convert` jobs, and
the log of performed actions. -/
structure ScanAcc (C : Type) where
  fs : List (FPath × C)
  newState : List (Str × FPath)
  files : List FPath
  toConvert : List (C × FPath)
  actions : List Action
deriving DecidableEq

/-- `undepthify(path.strip_prefix(&src)).with_extension("mp3")`
(musync.rs:140). -/
def relOut {C : Type} (f : SrcFile C) : FPath :=
  setLastMp3 (undepthify (f.dirs ++ [f.name]))

/-- The extension filter of musync.rs:133–137 as a predicate: the file has an
extension that is convertible or already `mp3`. -/
def passes {C : Type} (f : SrcFile C) : Bool :=
  match rustExt f.name with
  | none => false
  | some e => decide (e ∈ EXTENSIONS_TO_CONVERT ∨ e = "mp3".toList)

/-- The unconditional bookkeeping at musync.rs:158–163: record
`(hash, relative)` in `new_state` and `relative` in `files`. -/
def recordEntry {C : Type} (hash : Str) (rel : FPath) (a : ScanAcc C) : ScanAcc C :=
  { a with newState := ainsert a.newState hash rel, files := finsert a.files rel }

/-- One iteration of the walk loop of `add_new_files` (musync.rs:126–164).
Directory creation (`create_dir_all`) is implicit: directories are derived
from file paths in this model. -/
def processFile {C : Type} (hashFn : C → Str) (prev : List (Str × FPath))
    (acc : ScanAcc C) (f : SrcFile C) : Except MErr (ScanAcc C) :=
  match rustExt f.name with
  | none => .ok acc
  | some ext =>
    if ext ∈ EXTENSIONS_TO_CONVERT ∨ ext = "mp3".toList then
      let hash := hashFn f.content
      let relative := relOut f
      match alookup prev hash with
      | some prevPath =>
        if prevPath ≠ relative then
          match alookup acc.fs prevPath with
          | none => .error .renameMissing
          | some c =>
            .ok (recordEntry hash relative
              { acc with fs := ainsert (aerase acc.fs prevPath) relative c,
                         actions := acc.actions ++ [Action.rename relative] })
        else .ok (recordEntry hash relative acc)
      | none =>
        if ext ∈ EXTENSIONS_TO_CONVERT then
          .ok (recordEntry hash relative
            { acc with toConvert := acc.toConvert ++ [(f.content, relative)] })
        else
          .ok (recordEntry hash relative
            { acc with fs := ainsert acc.fs relative f.content,
                       actions := acc.actions ++ [Action.copy relative] })
    else .ok acc

/-- The whole walk of `add_new_files`: on an error the loop stops and the
state reached so far is kept (the state file itself is never touched here). -/
def scanFiles {C : Type} (hashFn : C → Str) (prev : List (Str × FPath)) :
    ScanAcc C → List (SrcFile C) → Option MErr × ScanAcc C
  | acc, [] => (none, acc)
  | acc, f :: rest =>
    match processFile hashFn prev acc f with
    | .error e => (some e, acc)
    | .ok acc' => scanFiles hashFn prev acc' rest

/-- `convert_files` (musync.rs:168) as its effect on the destination map: each
spawned `ffmpeg` writes the transcoded source to the destination path; a spawn
failure (injected through `spawnFails`) aborts, leaving the outputs of jobs
already processed in place. -/
def runConversions {C : Type} (transcode : C → C) (spawnFails : Nat → Bool) :
    Nat → List (C × FPath) → List (FPath × C) → List Action →
      Option MErr × List (FPath × C) × List Action
  | _, [], fs, acts => (none, fs, acts)
  | i, (c, rel) :: rest, fs, acts =>
    if spawnFails i then (some .convertSpawn, fs, acts)
    else runConversions transcode spawnFails (i + 1) rest
      (ainsert fs rel (transcode c)) (acts ++ [Action.convert rel])

/-- `remove_non_existent_files` (musync.rs:93): walk the destination files,
keep the state file and every expected file, remove the rest. -/
def pruneDest {C : Type} (files : List FPath) :
    List (FPath × C) → List (FPath × C) × List Action
  | [] => ([], [])
  | e :: rest =>
    let r := pruneDest files rest
    if e.1 = [stateFileName] ∨ e.1 ∈ files then (e :: r.1, r.2)
    else (r.1, Action.remove e.1 :: r.2)

/-- Destination-side world: the destination tree as a map from relative path
to contents, and the persisted state file (`none` = absent), kept at the
mapping level of abstraction. -/
structure World (C : Type) where
  fs : List (FPath × C)
  stateFile : Option (List (Str × FPath))
deriving DecidableEq

/-- Injectable external failures: which `ffmpeg` spawns fail, and whether the
`find` spawn of `remove_empty_directories` fails. -/
structure Oracle where
  convertSpawnFails : Nat → Bool
  findSpawnFails : Bool

/-- The oracle of a run in which every external process starts normally. -/
def okOracle : Oracle := ⟨fun _ => false, false⟩

/-- Result of one `musync` run: the error it aborted with (if any), the
destination world it left behind, the `new_state` it computed, and the log of
actions it performed. -/
structure RunOut (C : Type) where
  err : Option MErr
  world : World C
  newState : List (Str × FPath)
  actions : List Action
deriving DecidableEq

/-- `musync` (musync.rs:201): read the prior state, scan/diff the source
tree, run the conversions, prune, persist the new state, and finally spawn
`find` to delete empty directories (a no-op on the file map, since
directories are implicit here, but its spawn can still fail). -/
def musyncRun {C : Type} (hashFn : C → Str) (transcode : C → C) (or : Oracle)
    (src : List (SrcFile C)) (w : World C) : RunOut C :=
  let prev := w.stateFile.getD []
  match scanFiles hashFn prev ⟨w.fs, [], [], [], []⟩ src with
  | (some e, acc) => ⟨some e, { w with fs := acc.fs }, acc.newState, acc.actions⟩
  | (none, acc) =>
    match runConversions transcode or.convertSpawnFails 0 acc.toConvert acc.fs acc.actions with
    | (some e, fs, acts) => ⟨some e, { w with fs := fs }, acc.newState, acts⟩
    | (none, fs, acts) =>
      let pr := pruneDest acc.files fs
      let w' : World C := ⟨pr.1, some acc.newState⟩
      if or.findSpawnFails then ⟨some .findSpawn, w', acc.newState, acts ++ pr.2⟩
      else ⟨none, w', acc.newState, acts ++ pr.2⟩

/-- `d` is a proper prefix of `p`: the directory `d` has the file or
directory `p` strictly beneath it. -/
def properPrefixB : FPath → FPath → Bool
  | [], [] => false
  | [], _ :: _ => true
  | _ :: _, [] => false
  | a :: as, b :: bs => decide (a = b) && properPrefixB as bs

/-- Modelled from the spec: the effect of the external
`find dst -type d -empty -delete` command spawned by
`remove_empty_directories` (musync.rs:69–80).  `-delete` implies depth-first
traversal, so a directory (and its newly-emptied ancestors) is removed
precisely when no regular file remains anywhere strictly beneath it. -/
def removeEmptyDirs {C : Type} (dirs : List FPath) (fs : List (FPath × C)) :
    List FPath :=
  dirs.filter (fun d => fs.any (fun e => properPrefixB d e.1))

/-- Argument vector of the `ffmpeg` invocation built by `convert_files`
(musync.rs:180–190): the bitrate argument is the string constant `256k`. -/
def ffmpegArgs (src dst : Str) : List Str :=
  ["-y".toList, "-i".toList, src, "-ab".toList, "256k".toList,
   "-hide_banner".toList, "-loglevel".toList, "error".toList, dst]

/-- Start/wait events of the conversion scheduler, indexed by job number. -/
inductive CEvent
  | start (i : Nat)
  | finish (i : Nat)
deriving DecidableEq

/-- Event trace of the job loop of `convert_files` (musync.rs:170–192): before
starting a job, if `cap` jobs are running they are all waited for; at the end
every still-running job is waited for (musync.rs:193–196). -/
def convertGo (cap : Nat) : List Nat → List Nat → List CEvent
  | running, [] => running.map CEvent.finish
  | running, i :: rest =>
    if cap ≤ running.length then
      running.map CEvent.finish ++ CEvent.start i :: convertGo cap [i] rest
    else CEvent.start i :: convertGo cap (running ++ [i]) rest

/-- The full scheduler trace for `n` jobs at the source's `MAX_JOBS` cap. -/
def convertTrace (n : Nat) : List CEvent := convertGo MAX_JOBS [] (List.range n)

/-- Number of `start` events in a trace. -/
def countStarts : List CEvent → Nat
  | [] => 0
  | CEvent.start _ :: r => countStarts r + 1
  | CEvent.finish _ :: r => countStarts r

/-- Number of `finish` (successful wait) events in a trace. -/
def countFinishes : List CEvent → Nat
  | [] => 0
  | CEvent.start _ :: r => countFinishes r
  | CEvent.finish _ :: r => countFinishes r + 1

/-- A concrete, injective stand-in fingerprint function for runs on concrete
inputs (contents are `Nat` there); distinct contents get distinct hashes, so
any collision exhibited with it comes from genuinely equal contents. -/
def cHash : Nat → Str := fun n => List.replicate (n + 1) 'a'

/-- The `new_state` table a scan builds, as a pure function of the walked
source list (the insert at musync.rs:162 runs for every file passing the
filter, whatever the classification was). -/
def buildStateFrom {C : Type} (hashFn : C → Str) :
    List (Str × FPath) → List (SrcFile C) → List (Str × FPath)
  | st, [] => st
  | st, f :: rest =>
    if passes f then
      buildStateFrom hashFn (ainsert st (hashFn f.content) (relOut f)) rest
    else buildStateFrom hashFn st rest

/-- The expected-file set a scan builds, as a pure function of the walked
source list (the insert at musync.rs:163). -/
def buildFilesFrom {C : Type} : List FPath → List (SrcFile C) → List FPath
  | fl, [] => fl
  | fl, f :: rest =>
    if passes f then buildFilesFrom (finsert fl (relOut f)) rest
    else buildFilesFrom fl rest

/-- The `(hash, relative-output)` pairs of exactly the files passing the
extension filter, in walk order. -/
def scanPairs {C : Type} (hashFn : C → Str) (src : List (SrcFile C)) :
    List (Str × FPath) :=
  (src.filter passes).map (fun f => (hashFn f.content, relOut f))

/-- Two source files with identical contents — a library holding the same
recording twice, at `x.mp3` and at `d/x.mp3`. -/
def dupSrc : List (SrcFile Nat) :=
  [⟨[], "x.mp3".toList, 0⟩, ⟨["d".toList], "x.mp3".toList, 0⟩]

/-- First run of `musync` over `dupSrc` onto an empty destination. -/
def dupRun1 : RunOut Nat := musyncRun cHash id okOracle dupSrc ⟨[], none⟩

/-- Second run of `musync` over the unchanged `dupSrc`, straight after the
first. -/
def dupRun2 : RunOut Nat := musyncRun cHash id okOracle dupSrc dupRun1.world

/-- A single-file source tree used to witness the amended idempotence
claim. -/
def oneSrc : List (SrcFile Nat) := [⟨[], "x.mp3".toList, 0⟩]

/-- Outcome of reading one line from an opened state file. -/
inductive LineResult
  | got (l : Str)
  | readFail
deriving DecidableEq

/-- Error kinds of `read_table`: a line-read `io::Error` (musync.rs:33) or a
line shorter than the key width (musync.rs:34–39). -/
inductive TErr
  | lineRead
  | tooShort
deriving DecidableEq

/-- The line loop of `read_table` over the lines of an opened file. -/
def readTableAuxFromOpen (n : Nat) :
    List (Str × Str) → List LineResult → Except TErr (List (Str × Str))
  | t, [] => .ok t
  | _, .readFail :: _ => .error .lineRead
  | t, .got l :: rest =>
    if l.length < n then .error .tooShort
    else readTableAuxFromOpen n (ainsert t (l.take n) (l.drop n)) rest

/-- `read_table` (musync.rs:28) with the `File::open` outcome explicit:
`none` models `read_lines` returning `Err` — the file being absent, but
equally a permission failure or any other open error — in which case the
`if let Ok(lines)` at musync.rs:31 skips the loop and the function returns
`Ok` of the empty map. -/
def readTableFromOpen (file : Option (List LineResult)) (n : Nat) :
    Except TErr (List (Str × Str)) :=
  match file with
  | none => .ok []
  | some lines => readTableAuxFromOpen n [] lines

end Musync

namespace Musync

lemma undepthify_cons_append (d : Str) (ds : List Str) (name : Str) :
    undepthify (d :: (ds ++ [name])) = [d, name] := by
  cases ds with
  | nil => rfl
  | cons e ds' =>
    show [d, ((e :: ds') ++ [name]).getLast _] = [d, name]
    rw [List.getLast_append_singleton]

/-- C9: the flatten function keeps exactly the first directory component and
the final file name; a top-level file is unchanged; composed with the
extension substitution it maps `a/b/c/d.flac` to `a/d.mp3`, `a.flac` to
`a.mp3`, and `a/b.flac` to `a/b.mp3`. -/
theorem C9_flatten :
    (∀ (d : Str) (ds : List Str) (name : Str),
        undepthify (d :: (ds ++ [name])) = [d, name])
    ∧ (∀ name : Str, undepthify [name] = [name])
    ∧ setLastMp3 (undepthify ["a".toList, "b".toList, "c".toList, "d.flac".toList])
        = ["a".toList, "d.mp3".toList]
    ∧ setLastMp3 (undepthify ["a.flac".toList]) = ["a.mp3".toList]
    ∧ setLastMp3 (undepthify ["a".toList, "b.flac".toList])
        = ["a".toList, "b.mp3".toList] := by
  refine ⟨undepthify_cons_append, fun _ => rfl, ?_, ?_, ?_⟩ <;> decide

lemma alookup_cons {κ ν : Type} [DecidableEq κ] (k : κ) (v : ν) (rest) (key) :
    alookup ((k, v) :: rest) key = if key = k then some v else alookup rest key :=
  rfl

lemma ainsert_of_lookup_none {κ ν : Type} [DecidableEq κ]
    {l : List (κ × ν)} {k : κ} (h : alookup l k = none) (v : ν) :
    ainsert l k v = l ++ [(k, v)] := by
  induction l with
  | nil => rfl
  | cons e rest ih =>
    obtain ⟨k', v'⟩ := e
    rw [alookup_cons] at h
    by_cases hk : k = k'
    · simp [hk] at h
    · rw [if_neg hk] at h
      simp [ainsert, hk, ih h]

lemma alookup_append_of_none {κ ν : Type} [DecidableEq κ]
    {l : List (κ × ν)} {k : κ} (h : alookup l k = none) (l' : List (κ × ν)) :
    alookup (l ++ l') k = alookup l' k := by
  induction l with
  | nil => rfl
  | cons e rest ih =>
    obtain ⟨k', v'⟩ := e
    rw [alookup_cons] at h
    by_cases hk : k = k'
    · simp [hk] at h
    · rw [if_neg hk] at h
      simpa [alookup, hk] using ih h

lemma stripCR_of_getLast_ne {l : Str} (h : l.getLast? ≠ some '\r') :
    stripCR l = l := by
  simp [stripCR, h]

lemma rustLinesAux_line {l : Str} (hl : '\n' ∉ l) :
    ∀ (acc rest : Str),
      rustLinesAux (l ++ '\n' :: rest) acc
        = stripCR (acc.reverse ++ l) :: rustLinesAux rest [] := by
  induction l with
  | nil =>
    intro acc rest
    simp [rustLinesAux]
  | cons c l' ih =>
    intro acc rest
    have hc : ¬ c = '\n' := fun h => hl (h ▸ List.mem_cons_self c l')
    have hl' : '\n' ∉ l' := fun h => hl (List.mem_cons_of_mem c h)
    show rustLinesAux (c :: (l' ++ '\n' :: rest)) acc = _
    rw [rustLinesAux, if_neg hc, ih hl' (c :: acc) rest]
    simp

lemma rustLines_writeTable {t : List (Str × Str)}
    (h : ∀ e ∈ t, '\n' ∉ e.1 ++ e.2 ∧ (e.1 ++ e.2).getLast? ≠ some '\r') :
    rustLines (writeTable t) = t.map (fun e => e.1 ++ e.2) := by
  induction t with
  | nil => rfl
  | cons e t' ih =>
    have he := h e (List.mem_cons_self e t')
    have hwt : writeTable (e :: t') = (e.1 ++ e.2) ++ '\n' :: writeTable t' := by
      simp [writeTable, List.append_assoc]
    rw [rustLines, hwt, rustLinesAux_line he.1 [] (writeTable t'),
      stripCR_of_getLast_ne (by simpa using he.2)]
    simp only [List.reverse_nil, List.nil_append, List.map_cons]
    rw [← rustLines, ih (fun x hx => h x (List.mem_cons_of_mem e hx))]

lemma readTableAux_map (n : Nat) :
    ∀ (t init : List (Str × Str)),
      (∀ e ∈ t, e.1.length = n) →
      (t.map Prod.fst).Nodup →
      (∀ e ∈ t, alookup init e.1 = none) →
      readTableAux n init (t.map (fun e => e.1 ++ e.2)) = .ok (init ++ t)
  | [], init, _, _, _ => by simp [readTableAux]
  | e :: t', init, hlen, hnd, hfresh => by
    have hlen1 : e.1.length = n := hlen e (List.mem_cons_self e t')
    have hnotlt : ¬ (e.1 ++ e.2).length < n := by
      rw [List.length_append, hlen1]; omega
    have htake : (e.1 ++ e.2).take n = e.1 := by
      rw [← hlen1]; exact List.take_left e.1 e.2
    have hdrop : (e.1 ++ e.2).drop n = e.2 := by
      rw [← hlen1]; exact List.drop_left e.1 e.2
    have hnd' : (e.1 :: t'.map Prod.fst).Nodup := by
      rw [← List.map_cons]; exact hnd
    have hhd : e.1 ∉ t'.map Prod.fst := (List.nodup_cons.1 hnd').1
    rw [List.map_cons, readTableAux, if_neg hnotlt, htake, hdrop,
      ainsert_of_lookup_none (hfresh e (List.mem_cons_self e t')) e.2]
    have hfresh' : ∀ p ∈ t', alookup (init ++ [(e.1, e.2)]) p.1 = none := by
      intro p hp
      rw [alookup_append_of_none (hfresh p (List.mem_cons_of_mem e hp)), alookup_cons]
      have hne : ¬ p.1 = e.1 := by
        intro hpe
        exact hhd (hpe ▸ List.mem_map_of_mem Prod.fst hp)
      simp [alookup, hne]
    rw [readTableAux_map n t' (init ++ [(e.1, e.2)])
      (fun x hx => hlen x (List.mem_cons_of_mem e hx))
      ((List.nodup_cons.1 hnd').2) hfresh']
    simp

/-- C3 as stated is false: a value that ends in a carriage return contains no
newline, yet `BufRead::lines` strips the `\r` of the resulting `\r\n` ending,
so the loaded mapping differs from the saved one. -/
theorem C3_roundtrip_counterexample :
    readTable (writeTable [("ab".toList, ['x', '\r'])]) 2
      ≠ Except.ok [("ab".toList, ['x', '\r'])] := by
  intro h
  have hval : readTable (writeTable [("ab".toList, ['x', '\r'])]) 2
      = Except.ok [("ab".toList, ['x'])] := by rfl
  rw [hval] at h
  exact absurd (Except.ok.inj h) (by decide)

/-- C3 (amended): for every mapping whose keys are exactly `n` lower-case hex
characters and whose values contain no newline **and do not end in a carriage
return**, saving and re-loading with the same key width returns the same
mapping. -/
theorem C3_roundtrip_amended (n : Nat) (t : List (Str × Str))
    (hkeys : ∀ e ∈ t, e.1.length = n ∧ ∀ c ∈ e.1, c ∈ hexDigits)
    (hvals : ∀ e ∈ t, '\n' ∉ e.2 ∧ e.2.getLast? ≠ some '\r')
    (hnodup : (t.map Prod.fst).Nodup) :
    readTable (writeTable t) n = Except.ok t := by
  have hhexNotNl : ('\n' : Char) ∉ hexDigits := by decide
  have hhexNotCr : ('\r' : Char) ∉ hexDigits := by decide
  have hline : ∀ e ∈ t, '\n' ∉ e.1 ++ e.2 ∧ (e.1 ++ e.2).getLast? ≠ some '\r' := by
    intro e he
    obtain ⟨hklen, hkhex⟩ := hkeys e he
    obtain ⟨hv1, hv2⟩ := hvals e he
    refine ⟨?_, ?_⟩
    · intro hmem
      rcases List.mem_append.1 hmem with hmk | hmv
      · exact hhexNotNl (hkhex _ hmk)
      · exact hv1 hmv
    · cases hv : e.2 with
      | nil =>
        rw [List.append_nil]
        intro hlast
        obtain ⟨hne, hEq⟩ := List.mem_getLast?_eq_getLast (x := '\r')
          (by rw [hlast]; rfl)
        exact hhexNotCr (hkhex _ (hEq ▸ List.getLast_mem hne))
      | cons a l =>
        rw [List.getLast?_append_of_ne_nil e.1 (List.cons_ne_nil a l)]
        rw [hv] at hv2
        exact hv2
  rw [readTable, rustLines_writeTable hline,
    readTableAux_map n t [] (fun e he => (hkeys e he).1) hnodup
      (fun _ _ => rfl)]
  rfl

/-- C3 witness: round trip through a concrete two-entry table. -/
theorem C3_roundtrip_amended_witness :
    readTable (writeTable [("ab".toList, "x".toList), ("cd".toList, "y/z".toList)]) 2
      = Except.ok [("ab".toList, "x".toList), ("cd".toList, "y/z".toList)] :=
  C3_roundtrip_amended 2 [("ab".toList, "x".toList), ("cd".toList, "y/z".toList)]
    (by decide) (by decide) (by decide)

/-- C8: a regular source file with no extension, or whose extension (compared
case-sensitively, as found) is neither in the convertible set nor `mp3`, is
skipped entirely by the scan: it changes no destination file, adds nothing to
`new_state`, `files` or the conversion queue, and emits no action. -/
theorem C8_extension_filter {C : Type} (hashFn : C → Str)
    (prev : List (Str × FPath)) (acc : ScanAcc C) (f : SrcFile C)
    (rest : List (SrcFile C))
    (h : rustExt f.name = none ∨
      ∃ e, rustExt f.name = some e ∧
        e ∉ EXTENSIONS_TO_CONVERT ∧ e ≠ "mp3".toList) :
    processFile hashFn prev acc f = .ok acc
    ∧ scanFiles hashFn prev acc (f :: rest) = scanFiles hashFn prev acc rest := by
  have hpf : processFile hashFn prev acc f = .ok acc := by
    rcases h with hnone | ⟨e, he, hne1, hne2⟩
    · simp [processFile, hnone]
    · have hcond : ¬ (e ∈ EXTENSIONS_TO_CONVERT ∨ e = "mp3".toList) := by
        rintro (h1 | h2)
        · exact hne1 h1
        · exact hne2 h2
      simp only [processFile, he]
      rw [if_neg hcond]
  refine ⟨hpf, ?_⟩
  show (match processFile hashFn prev acc f with
    | .error e => (some e, acc)
    | .ok acc' => scanFiles hashFn prev acc' rest) = _
  rw [hpf]

/-- C8 witness: a `.txt` file is ignored by the scan. -/
theorem C8_extension_filter_witness :
    processFile (fun n : Nat => [Char.ofNat n]) [] ⟨[], [], [], [], []⟩
      ⟨[], "x.txt".toList, 0⟩ = .ok ⟨[], [], [], [], []⟩ :=
  (C8_extension_filter (fun n : Nat => [Char.ofNat n]) [] ⟨[], [], [], [], []⟩
    ⟨[], "x.txt".toList, 0⟩ []
    (Or.inr ⟨"txt".toList, rfl, by decide, by decide⟩)).1

/-- C2: per-file classification.  For a file that passes the extension
filter, with `h = hashFn content` and `relOut` its flattened `.mp3` path:
a prior entry with a different stored path causes exactly a rename of the
stored destination file to `relOut`; an identical stored path causes no
filesystem action; an absent hash enqueues a conversion job for a convertible
extension and otherwise copies the file; in all cases `(h, relOut)` is
recorded in `new_state` and `relOut` in the expected files. -/
theorem C2_classification {C : Type} (hashFn : C → Str)
    (prev : List (Str × FPath)) (acc : ScanAcc C) (f : SrcFile C) (e : Str)
    (hext : rustExt f.name = some e)
    (hpass : e ∈ EXTENSIONS_TO_CONVERT ∨ e = "mp3".toList) :
    (∀ p c, alookup prev (hashFn f.content) = some p → p ≠ relOut f →
        alookup acc.fs p = some c →
        processFile hashFn prev acc f = .ok
          ⟨ainsert (aerase acc.fs p) (relOut f) c,
           ainsert acc.newState (hashFn f.content) (relOut f),
           finsert acc.files (relOut f),
           acc.toConvert,
           acc.actions ++ [Action.rename (relOut f)]⟩)
    ∧ (alookup prev (hashFn f.content) = some (relOut f) →
        processFile hashFn prev acc f = .ok
          ⟨acc.fs,
           ainsert acc.newState (hashFn f.content) (relOut f),
           finsert acc.files (relOut f),
           acc.toConvert, acc.actions⟩)
    ∧ (alookup prev (hashFn f.content) = none → e ∈ EXTENSIONS_TO_CONVERT →
        processFile hashFn prev acc f = .ok
          ⟨acc.fs,
           ainsert acc.newState (hashFn f.content) (relOut f),
           finsert acc.files (relOut f),
           acc.toConvert ++ [(f.content, relOut f)], acc.actions⟩)
    ∧ (alookup prev (hashFn f.content) = none → e ∉ EXTENSIONS_TO_CONVERT →
        processFile hashFn prev acc f = .ok
          ⟨ainsert acc.fs (relOut f) f.content,
           ainsert acc.newState (hashFn f.content) (relOut f),
           finsert acc.files (relOut f),
           acc.toConvert, acc.actions ++ [Action.copy (relOut f)]⟩) := by
  obtain ⟨fs, ns, fl, tc, ac⟩ := acc
  refine ⟨?_, ?_, ?_, ?_⟩
  · intro p c hprev hne hfs
    simp only [processFile, hext]
    rw [if_pos hpass]
    simp only [hprev]
    rw [if_pos hne]
    simp only at hfs
    simp only [hfs, recordEntry]
  · intro hprev
    simp only [processFile, hext]
    rw [if_pos hpass]
    simp only [hprev]
    rw [if_neg (by simp)]
    simp only [recordEntry]
  · intro hprev hconv
    simp only [processFile, hext]
    rw [if_pos hpass]
    simp only [hprev]
    rw [if_pos hconv]
    simp only [recordEntry]
  · intro hprev hconv
    simp only [processFile, hext]
    rw [if_pos hpass]
    simp only [hprev]
    rw [if_neg hconv]
    simp only [recordEntry]

/-- C2 witness: the unchanged case at a concrete input. -/
theorem C2_classification_witness :
    processFile (fun _ : Nat => ['h']) [(['h'], ["x.mp3".toList])]
      ⟨[], [], [], [], []⟩ ⟨[], "x.mp3".toList, 0⟩ = .ok
      ⟨[], [(['h'], ["x.mp3".toList])], [["x.mp3".toList]], [], []⟩ :=
  (C2_classification (fun _ : Nat => ['h']) [(['h'], ["x.mp3".toList])]
    ⟨[], [], [], [], []⟩ ⟨[], "x.mp3".toList, 0⟩ "mp3".toList rfl
    (by decide)).2.1 (by decide)

/-- C6: the scheduler's cap and bitrate are not configuration: every ffmpeg
invocation carries the literal `256k` bitrate argument, and the cap in effect
is the constant `MAX_JOBS = 16`, regardless of the `jobs` and `bitrate`
values that `main.rs` parses and supplies. -/
theorem C6_embedded_constants :
    (∀ src dst : Str, (ffmpegArgs src dst)[4]? = some "256k".toList)
    ∧ MAX_JOBS = 16
    ∧ ∀ n, convertTrace n = convertGo 16 [] (List.range n) :=
  ⟨fun _ _ => rfl, rfl, fun _ => rfl⟩

lemma readTableAuxFromOpen_ok (n : Nat) :
    ∀ (lines : List LineResult) (t : List (Str × Str)),
      (∀ r ∈ lines, ∃ l, r = LineResult.got l ∧ n ≤ l.length) →
      ∃ t', readTableAuxFromOpen n t lines = .ok t'
  | [], t, _ => ⟨t, rfl⟩
  | r :: rest, t, h => by
    obtain ⟨l, rfl, hlen⟩ := h r (List.mem_cons_self r rest)
    rw [readTableAuxFromOpen, if_neg (by omega)]
    exact readTableAuxFromOpen_ok n rest _ (fun x hx => h x (List.mem_cons_of_mem _ hx))

/-- C10 (implicit): when the state file cannot be opened — for any reason,
absence and permission denial alike — `read_table` returns the empty mapping
without an error; an error can only arise from a failed line read or a line
shorter than the key width, so with an opened file whose lines all read
successfully and are long enough, the load succeeds. -/
theorem C10_open_failure (n : Nat) :
    readTableFromOpen none n = .ok []
    ∧ (∀ lines : List LineResult,
        (∀ r ∈ lines, ∃ l, r = LineResult.got l ∧ n ≤ l.length) →
        ∃ t, readTableFromOpen (some lines) n = .ok t) :=
  ⟨rfl, fun lines h => readTableAuxFromOpen_ok n lines [] h⟩

/-- C10 witness at a concrete opened file. -/
theorem C10_open_failure_witness :
    readTableFromOpen none 2 = .ok []
    ∧ ∃ t, readTableFromOpen (some [LineResult.got "abcd".toList]) 2 = .ok t :=
  ⟨(C10_open_failure 2).1,
    (C10_open_failure 2).2 [LineResult.got "abcd".toList]
      (by intro r hr; refine ⟨"abcd".toList, ?_, by decide⟩
          simpa using hr)⟩

lemma pruneDest_mem_fst {C : Type} (files : List FPath) :
    ∀ (fs : List (FPath × C)) (p : FPath) (c : C),
      (p, c) ∈ (pruneDest files fs).1 ↔
        ((p, c) ∈ fs ∧ (p = [stateFileName] ∨ p ∈ files))
  | [], p, c => by simp [pruneDest]
  | (q, d) :: rest, p, c => by
    have ih := pruneDest_mem_fst files rest p c
    by_cases h : q = [stateFileName] ∨ q ∈ files
    · simp only [pruneDest, if_pos h, List.mem_cons, ih, Prod.mk.injEq]
      constructor
      · rintro (⟨rfl, rfl⟩ | ⟨hm, hk⟩)
        · exact ⟨Or.inl ⟨rfl, rfl⟩, h⟩
        · exact ⟨Or.inr hm, hk⟩
      · rintro ⟨⟨rfl, rfl⟩ | hm, hk⟩
        · exact Or.inl ⟨rfl, rfl⟩
        · exact Or.inr ⟨hm, hk⟩
    · simp only [pruneDest, if_neg h, List.mem_cons, ih, Prod.mk.injEq]
      constructor
      · rintro ⟨hm, hk⟩
        exact ⟨Or.inr hm, hk⟩
      · rintro ⟨⟨rfl, rfl⟩ | hm, hk⟩
        · exact absurd hk h
        · exact ⟨hm, hk⟩

lemma pruneDest_mem_snd {C : Type} (files : List FPath) :
    ∀ (fs : List (FPath × C)) (p : FPath),
      Action.remove p ∈ (pruneDest files fs).2 ↔
        ∃ c, (p, c) ∈ fs ∧ ¬(p = [stateFileName] ∨ p ∈ files)
  | [], p => by simp [pruneDest]
  | (q, d) :: rest, p => by
    have ih := pruneDest_mem_snd files rest p
    by_cases h : q = [stateFileName] ∨ q ∈ files
    · simp only [pruneDest, if_pos h, ih]
      constructor
      · rintro ⟨c, hm, hk⟩
        exact ⟨c, List.mem_cons_of_mem _ hm, hk⟩
      · rintro ⟨c, hm, hk⟩
        rcases List.mem_cons.1 hm with heq | hm'
        · injection heq with h1 h2
          subst h1
          exact absurd h hk
        · exact ⟨c, hm', hk⟩
    · simp only [pruneDest, if_neg h, List.mem_cons]
      constructor
      · rintro (heq | hm)
        · injection heq with h1
          subst h1
          exact ⟨d, Or.inl rfl, h⟩
        · obtain ⟨c, hm', hk⟩ := ih.1 hm
          exact ⟨c, Or.inr hm', hk⟩
      · rintro ⟨c, hm, hk⟩
        rcases hm with heq | hm'
        · injection heq with h1 h2
          subst h1
          exact Or.inl rfl
        · exact Or.inr (ih.2 ⟨c, hm', hk⟩)

/-- C4: the pruner keeps exactly the destination files whose relative path is
the state file's name or a member of the expected set, removes exactly the
others, and the subsequent empty-directory pass keeps a directory precisely
when some surviving file lies strictly beneath it (so directories emptied by
the removals are deleted). -/
theorem C4_prune {C : Type} (files : List FPath) (fs : List (FPath × C)) :
    (∀ p c, (p, c) ∈ (pruneDest files fs).1 ↔
        ((p, c) ∈ fs ∧ (p = [stateFileName] ∨ p ∈ files)))
    ∧ (∀ p, Action.remove p ∈ (pruneDest files fs).2 ↔
        ∃ c, (p, c) ∈ fs ∧ ¬(p = [stateFileName] ∨ p ∈ files))
    ∧ ∀ (dirs : List FPath) (d : FPath),
        d ∈ removeEmptyDirs dirs (pruneDest files fs).1 ↔
          d ∈ dirs ∧ ∃ e ∈ (pruneDest files fs).1, properPrefixB d e.1 = true := by
  refine ⟨fun p c => pruneDest_mem_fst files fs p c,
          fun p => pruneDest_mem_snd files fs p,
          fun dirs d => ?_⟩
  rw [removeEmptyDirs, List.mem_filter, List.any_eq_true]

lemma prefix_cons_cases {α : Type} {q : List α} {a : α} {l : List α}
    (h : q <+: a :: l) : q = [] ∨ ∃ q', q = a :: q' ∧ q' <+: l := by
  cases q with
  | nil => exact Or.inl rfl
  | cons b q' =>
    obtain ⟨t, ht⟩ := h
    injection ht with h1 h2
    exact Or.inr ⟨q', by rw [h1], ⟨t, h2⟩⟩

lemma prefix_append_cases {α : Type} {q l₁ l₂ : List α}
    (h : q <+: l₁ ++ l₂) : q <+: l₁ ∨ ∃ q', q = l₁ ++ q' ∧ q' <+: l₂ := by
  induction l₁ generalizing q with
  | nil => exact Or.inr ⟨q, rfl, h⟩
  | cons a l₁' ih =>
    rcases prefix_cons_cases h with rfl | ⟨q', rfl, hq'⟩
    · exact Or.inl List.nil_prefix
    · rcases ih hq' with h1 | ⟨q'', rfl, h2⟩
      · obtain ⟨t, ht⟩ := h1
        exact Or.inl ⟨t, by rw [List.cons_append, ht]⟩
      · exact Or.inr ⟨q'', rfl, h2⟩

lemma countStarts_append :
    ∀ l₁ l₂ : List CEvent, countStarts (l₁ ++ l₂) = countStarts l₁ + countStarts l₂
  | [], _ => by simp [countStarts]
  | CEvent.start _ :: r, l₂ => by
    simp [countStarts, countStarts_append r l₂]
    omega
  | CEvent.finish _ :: r, l₂ => by
    simp [countStarts, countStarts_append r l₂]

lemma countFinishes_append :
    ∀ l₁ l₂ : List CEvent, countFinishes (l₁ ++ l₂) = countFinishes l₁ + countFinishes l₂
  | [], _ => by simp [countFinishes]
  | CEvent.start _ :: r, l₂ => by
    simp [countFinishes, countFinishes_append r l₂]
  | CEvent.finish _ :: r, l₂ => by
    simp [countFinishes, countFinishes_append r l₂]
    omega

lemma countStarts_map_finish : ∀ l : List Nat, countStarts (l.map CEvent.finish) = 0
  | [] => rfl
  | _ :: r => countStarts_map_finish r

lemma countFinishes_map_finish :
    ∀ l : List Nat, countFinishes (l.map CEvent.finish) = l.length
  | [] => rfl
  | _ :: r => by simp [countFinishes, countFinishes_map_finish r]

lemma convertGo_bound {cap : Nat} (hcap : 1 ≤ cap) :
    ∀ (todo running : List Nat), running.length ≤ cap →
      ∀ q, q <+: convertGo cap running todo →
        countStarts q + running.length ≤ countFinishes q + cap
  | [], running, hlen, q, hq => by
    obtain ⟨t, ht⟩ := hq
    have hz : countStarts q + countStarts t = 0 := by
      rw [← countStarts_append, ht, convertGo, countStarts_map_finish]
    omega
  | i :: rest, running, hlen, q, hq => by
    rw [convertGo] at hq
    by_cases hfull : cap ≤ running.length
    · rw [if_pos hfull] at hq
      have hrl : running.length = cap := le_antisymm hlen hfull
      rcases prefix_append_cases hq with hq1 | ⟨q', rfl, hq2⟩
      · obtain ⟨t, ht⟩ := hq1
        have hz : countStarts q + countStarts t = 0 := by
          rw [← countStarts_append, ht, countStarts_map_finish]
        omega
      · rcases prefix_cons_cases hq2 with rfl | ⟨q'', rfl, hq3⟩
        · rw [countStarts_append, countFinishes_append, countStarts_map_finish,
            countFinishes_map_finish]
          simp only [countStarts, countFinishes]
          omega
        · have IH := convertGo_bound hcap rest [i] (by simpa using hcap) q'' hq3
          rw [countStarts_append, countFinishes_append, countStarts_map_finish,
            countFinishes_map_finish]
          have hs : countStarts (CEvent.start i :: q'') = countStarts q'' + 1 := rfl
          have hf : countFinishes (CEvent.start i :: q'') = countFinishes q'' := rfl
          rw [hs, hf]
          simp only [List.length_singleton] at IH
          omega
    · rw [if_neg hfull] at hq
      rcases prefix_cons_cases hq with rfl | ⟨q', rfl, hq2⟩
      · simp [countStarts, countFinishes]
        omega
      · have IH := convertGo_bound hcap rest (running ++ [i])
          (by simp only [List.length_append, List.length_singleton]; omega) q' hq2
        have hs : countStarts (CEvent.start i :: q') = countStarts q' + 1 := rfl
        have hf : countFinishes (CEvent.start i :: q') = countFinishes q' := rfl
        rw [hs, hf]
        simp only [List.length_append, List.length_singleton] at IH
        omega

lemma convertGo_complete (cap : Nat) :
    ∀ (todo running : List Nat),
      (∀ i ∈ todo, CEvent.start i ∈ convertGo cap running todo
        ∧ CEvent.finish i ∈ convertGo cap running todo)
      ∧ (∀ j ∈ running, CEvent.finish j ∈ convertGo cap running todo)
  | [], running => by
    constructor
    · intro i hi
      cases hi
    · intro j hj
      rw [convertGo]
      exact List.mem_map_of_mem CEvent.finish hj
  | i :: rest, running => by
    have IH1 := convertGo_complete cap rest [i]
    have IH2 := convertGo_complete cap rest (running ++ [i])
    by_cases hfull : cap ≤ running.length
    · rw [convertGo, if_pos hfull]
      constructor
      · intro k hk
        rcases List.mem_cons.1 hk with rfl | hk'
        · exact ⟨List.mem_append_right _ (List.mem_cons_self _ _),
            List.mem_append_right _ (List.mem_cons_of_mem _
              (IH1.2 k (List.mem_singleton_self k)))⟩
        · exact ⟨List.mem_append_right _ (List.mem_cons_of_mem _ ((IH1.1 k hk').1)),
            List.mem_append_right _ (List.mem_cons_of_mem _ ((IH1.1 k hk').2))⟩
      · intro j hj
        exact List.mem_append_left _ (List.mem_map_of_mem CEvent.finish hj)
    · rw [convertGo, if_neg hfull]
      constructor
      · intro k hk
        rcases List.mem_cons.1 hk with rfl | hk'
        · exact ⟨List.mem_cons_self _ _,
            List.mem_cons_of_mem _ (IH2.2 k (List.mem_append_right _
              (List.mem_singleton_self k)))⟩
        · exact ⟨List.mem_cons_of_mem _ ((IH2.1 k hk').1),
            List.mem_cons_of_mem _ ((IH2.1 k hk').2)⟩
      · intro j hj
        exact List.mem_cons_of_mem _ (IH2.2 j (List.mem_append_left _ hj))

/-- C5: along every prefix of the scheduler's event trace the number of
started jobs never exceeds the number of completed waits by more than the
cap `MAX_JOBS` (so at most `MAX_JOBS` transcoders are ever active at once),
and every job is both started and waited to completion before the scheduler
returns. -/
theorem C5_concurrency_bound (n : Nat) :
    (∀ q, q <+: convertTrace n → countStarts q ≤ countFinishes q + MAX_JOBS)
    ∧ ∀ i < n, CEvent.start i ∈ convertTrace n ∧ CEvent.finish i ∈ convertTrace n := by
  constructor
  · intro q hq
    have h := @convertGo_bound MAX_JOBS (by decide) (List.range n) []
      (by simp) q hq
    simpa using h
  · intro i hi
    exact (convertGo_complete MAX_JOBS (List.range n) []).1 i (List.mem_range.2 hi)

/-- C5 witness at three jobs. -/
theorem C5_concurrency_bound_witness :
    countStarts (convertTrace 3) ≤ countFinishes (convertTrace 3) + MAX_JOBS
    ∧ (CEvent.start 2 ∈ convertTrace 3 ∧ CEvent.finish 2 ∈ convertTrace 3) :=
  ⟨(C5_concurrency_bound 3).1 (convertTrace 3) (List.prefix_refl _),
    (C5_concurrency_bound 3).2 2 (by decide)⟩

/-- C7 as stated is false: `remove_empty_directories` is spawned after
`write_table` (musync.rs:211–212), so a `find` spawn failure aborts the run
with an error after the new state has already replaced the prior state
file. -/
theorem C7_atomicity_counterexample :
    ((musyncRun cHash id ⟨fun _ => false, true⟩
        [⟨[], "x.mp3".toList, 0⟩] ⟨[], none⟩).err = some MErr.findSpawn)
    ∧ (musyncRun cHash id ⟨fun _ => false, true⟩
        [⟨[], "x.mp3".toList, 0⟩] ⟨[], none⟩).world.stateFile
        ≠ (⟨[], none⟩ : World Nat).stateFile := by
  constructor
  · rfl
  · decide

/-- C7 (amended): whenever a run aborts with an error in any phase before
state persistence — scanning (including a failed rename), conversion
spawning, pruning — the persisted state file keeps exactly its prior
contents; and a successful pass through persistence writes the file exactly
once, with the new state (even when the later `find` spawn of the
empty-directory cleanup aborts the run, the file holds the new state). -/
theorem C7_atomicity_amended {C : Type} (hashFn : C → Str) (transcode : C → C)
    (or : Oracle) (src : List (SrcFile C)) (w : World C) :
    (∀ e, (musyncRun hashFn transcode or src w).err = some e →
        e ≠ MErr.findSpawn →
        (musyncRun hashFn transcode or src w).world.stateFile = w.stateFile)
    ∧ ((musyncRun hashFn transcode or src w).err = none →
        (musyncRun hashFn transcode or src w).world.stateFile
          = some (musyncRun hashFn transcode or src w).newState) := by
  rcases hscan : scanFiles hashFn (w.stateFile.getD []) ⟨w.fs, [], [], [], []⟩ src
    with ⟨oe, acc⟩
  cases oe with
  | some e' =>
    have hrun : musyncRun hashFn transcode or src w
        = ⟨some e', { w with fs := acc.fs }, acc.newState, acc.actions⟩ := by
      simp only [musyncRun, hscan]
    rw [hrun]
    exact ⟨fun e _ _ => rfl, fun hnone => by cases hnone⟩
  | none =>
    rcases hconv : runConversions transcode or.convertSpawnFails 0
        acc.toConvert acc.fs acc.actions with ⟨oc, fsc, actsc⟩
    cases oc with
    | some e' =>
      have hrun : musyncRun hashFn transcode or src w
          = ⟨some e', { w with fs := fsc }, acc.newState, actsc⟩ := by
        simp only [musyncRun, hscan, hconv]
      rw [hrun]
      exact ⟨fun e _ _ => rfl, fun hnone => by cases hnone⟩
    | none =>
      by_cases hf : or.findSpawnFails
      · have hrun : musyncRun hashFn transcode or src w
            = ⟨some .findSpawn,
               ⟨(pruneDest acc.files fsc).1, some acc.newState⟩,
               acc.newState, actsc ++ (pruneDest acc.files fsc).2⟩ := by
          simp only [musyncRun, hscan, hconv, if_pos hf]
        rw [hrun]
        refine ⟨fun e he hne => ?_, fun hnone => by cases hnone⟩
        injection he with he'
        exact absurd he'.symm hne
      · have hrun : musyncRun hashFn transcode or src w
            = ⟨none,
               ⟨(pruneDest acc.files fsc).1, some acc.newState⟩,
               acc.newState, actsc ++ (pruneDest acc.files fsc).2⟩ := by
          simp only [musyncRun, hscan, hconv, if_neg hf]
        rw [hrun]
        refine ⟨fun e he _ => ?_, fun _ => rfl⟩
        cases he

lemma passes_true_iff {C : Type} (f : SrcFile C) :
    passes f = true ↔ ∃ e, rustExt f.name = some e
      ∧ (e ∈ EXTENSIONS_TO_CONVERT ∨ e = "mp3".toList) := by
  unfold passes
  cases h : rustExt f.name with
  | none => simp
  | some e => simp

lemma processFile_filtered {C : Type} (hashFn : C → Str)
    (prev : List (Str × FPath)) (acc : ScanAcc C) (f : SrcFile C)
    (h : passes f = false) :
    processFile hashFn prev acc f = .ok acc := by
  unfold passes at h
  cases hext : rustExt f.name with
  | none => simp [processFile, hext]
  | some e =>
    rw [hext] at h
    have hcond : ¬ (e ∈ EXTENSIONS_TO_CONVERT ∨ e = "mp3".toList) :=
      of_decide_eq_false h
    simp only [processFile, hext]
    rw [if_neg hcond]

lemma processFile_unchanged {C : Type} (hashFn : C → Str)
    (prev : List (Str × FPath)) (acc : ScanAcc C) (f : SrcFile C)
    (hp : passes f = true)
    (hl : alookup prev (hashFn f.content) = some (relOut f)) :
    processFile hashFn prev acc f
      = .ok (recordEntry (hashFn f.content) (relOut f) acc) := by
  obtain ⟨e, hext, hpass⟩ := (passes_true_iff f).1 hp
  simp only [processFile, hext]
  rw [if_pos hpass]
  simp only [hl]
  rw [if_neg (by simp)]

lemma processFile_ok_parts {C : Type} {hashFn : C → Str}
    {prev : List (Str × FPath)} {acc acc' : ScanAcc C} {f : SrcFile C}
    (h : processFile hashFn prev acc f = .ok acc') :
    (passes f = false ∧ acc' = acc)
    ∨ (passes f = true
        ∧ acc'.newState = ainsert acc.newState (hashFn f.content) (relOut f)
        ∧ acc'.files = finsert acc.files (relOut f)) := by
  cases hp : passes f
  · left
    rw [processFile_filtered hashFn prev acc f hp] at h
    exact ⟨rfl, (Except.ok.inj h).symm⟩
  · right
    obtain ⟨e, hext, hpass⟩ := (passes_true_iff f).1 hp
    refine ⟨rfl, ?_⟩
    revert h
    simp only [processFile, hext]
    rw [if_pos hpass]
    intro h
    split at h
    · split at h
      · split at h
        · cases h
        · rw [← Except.ok.inj h]
          exact ⟨rfl, rfl⟩
      · rw [← Except.ok.inj h]
        exact ⟨rfl, rfl⟩
    · split at h
      · rw [← Except.ok.inj h]
        exact ⟨rfl, rfl⟩
      · rw [← Except.ok.inj h]
        exact ⟨rfl, rfl⟩

lemma scanFiles_ok_parts {C : Type} (hashFn : C → Str)
    (prev : List (Str × FPath)) :
    ∀ (src : List (SrcFile C)) (acc acc' : ScanAcc C),
      scanFiles hashFn prev acc src = (none, acc') →
      acc'.newState = buildStateFrom hashFn acc.newState src
      ∧ acc'.files = buildFilesFrom acc.files src
  | [], acc, acc', h => by
    injection h with h1 h2
    subst h2
    exact ⟨rfl, rfl⟩
  | f :: rest, acc, acc', h => by
    revert h
    cases hpf : processFile hashFn prev acc f with
    | error e =>
      simp only [scanFiles, hpf]
      intro h
      injection h with h1 h2
      cases h1
    | ok acc1 =>
      simp only [scanFiles, hpf]
      intro h
      rcases processFile_ok_parts hpf with ⟨hp, rfl⟩ | ⟨hp, hns, hfl⟩
      · obtain ⟨ih1, ih2⟩ := scanFiles_ok_parts hashFn prev rest acc1 acc' h
        rw [ih1, ih2]
        constructor
        · show buildStateFrom hashFn acc1.newState rest
            = buildStateFrom hashFn acc1.newState (f :: rest)
          simp [buildStateFrom, hp]
        · show buildFilesFrom acc1.files rest
            = buildFilesFrom acc1.files (f :: rest)
          simp [buildFilesFrom, hp]
      · obtain ⟨ih1, ih2⟩ := scanFiles_ok_parts hashFn prev rest acc1 acc' h
        rw [ih1, ih2, hns, hfl]
        constructor
        · show buildStateFrom hashFn (ainsert acc.newState (hashFn f.content) (relOut f)) rest
            = buildStateFrom hashFn acc.newState (f :: rest)
          simp [buildStateFrom, hp]
        · show buildFilesFrom (finsert acc.files (relOut f)) rest
            = buildFilesFrom acc.files (f :: rest)
          simp [buildFilesFrom, hp]

lemma alookup_pairs {κ ν : Type} [DecidableEq κ] :
    ∀ (ps : List (κ × ν)), (ps.map Prod.fst).Nodup →
      ∀ p ∈ ps, alookup ps p.1 = some p.2
  | [], _, p, hp => absurd hp (List.not_mem_nil p)
  | (k, v) :: rest, hnd, p, hp => by
    have hnd' : (k :: rest.map Prod.fst).Nodup := by
      simpa using hnd
    rcases List.mem_cons.1 hp with rfl | hp'
    · simp [alookup]
    · have hk : ¬ p.1 = k := by
        intro he
        exact (List.nodup_cons.1 hnd').1 (he ▸ List.mem_map_of_mem Prod.fst hp')
      rw [alookup_cons, if_neg hk]
      exact alookup_pairs rest (List.nodup_cons.1 hnd').2 p hp'

lemma scanPairs_cons_filtered {C : Type} (hashFn : C → Str) (f : SrcFile C)
    (rest : List (SrcFile C)) (hp : passes f = false) :
    scanPairs hashFn (f :: rest) = scanPairs hashFn rest := by
  simp [scanPairs, List.filter_cons, hp]

lemma scanPairs_cons_passing {C : Type} (hashFn : C → Str) (f : SrcFile C)
    (rest : List (SrcFile C)) (hp : passes f = true) :
    scanPairs hashFn (f :: rest)
      = (hashFn f.content, relOut f) :: scanPairs hashFn rest := by
  simp [scanPairs, List.filter_cons, hp]

lemma buildStateFrom_fresh {C : Type} (hashFn : C → Str) :
    ∀ (src : List (SrcFile C)) (init : List (Str × FPath)),
      ((scanPairs hashFn src).map Prod.fst).Nodup →
      (∀ k ∈ (scanPairs hashFn src).map Prod.fst, alookup init k = none) →
      buildStateFrom hashFn init src = init ++ scanPairs hashFn src
  | [], init, _, _ => by simp [buildStateFrom, scanPairs]
  | f :: rest, init, hnd, hfresh => by
    cases hp : passes f
    · rw [scanPairs_cons_filtered hashFn f rest hp] at hnd hfresh ⊢
      have hstep : buildStateFrom hashFn init (f :: rest)
          = buildStateFrom hashFn init rest := by
        simp [buildStateFrom, hp]
      rw [hstep]
      exact buildStateFrom_fresh hashFn rest init hnd hfresh
    · rw [scanPairs_cons_passing hashFn f rest hp] at hnd hfresh ⊢
      rw [List.map_cons] at hnd hfresh
      have hfreshHead : alookup init (hashFn f.content) = none :=
        hfresh _ (List.mem_cons_self _ _)
      have hstep : buildStateFrom hashFn init (f :: rest)
          = buildStateFrom hashFn
              (ainsert init (hashFn f.content) (relOut f)) rest := by
        simp [buildStateFrom, hp]
      rw [hstep, ainsert_of_lookup_none hfreshHead]
      have hfresh' : ∀ k ∈ (scanPairs hashFn rest).map Prod.fst,
          alookup (init ++ [(hashFn f.content, relOut f)]) k = none := by
        intro k hk
        rw [alookup_append_of_none (hfresh k (List.mem_cons_of_mem _ hk)),
          alookup_cons]
        have hkne : ¬ k = hashFn f.content := by
          intro he
          exact (List.nodup_cons.1 hnd).1 (he ▸ hk)
        rw [if_neg hkne]
        rfl
      rw [buildStateFrom_fresh hashFn rest _ (List.nodup_cons.1 hnd).2 hfresh']
      simp

lemma scanFiles_unchanged {C : Type} (hashFn : C → Str)
    (prev : List (Str × FPath)) :
    ∀ (src : List (SrcFile C)) (acc : ScanAcc C),
      (∀ f ∈ src, passes f = true →
        alookup prev (hashFn f.content) = some (relOut f)) →
      scanFiles hashFn prev acc src =
        (none, ⟨acc.fs, buildStateFrom hashFn acc.newState src,
                buildFilesFrom acc.files src, acc.toConvert, acc.actions⟩)
  | [], acc, _ => rfl
  | f :: rest, acc, H => by
    cases hp : passes f
    · simp only [scanFiles, processFile_filtered hashFn prev acc f hp]
      rw [scanFiles_unchanged hashFn prev rest acc
        (fun g hg hpg => H g (List.mem_cons_of_mem f hg) hpg)]
      have h1 : buildStateFrom hashFn acc.newState (f :: rest)
          = buildStateFrom hashFn acc.newState rest := by
        simp [buildStateFrom, hp]
      have h2 : buildFilesFrom acc.files (f :: rest)
          = buildFilesFrom acc.files rest := by
        simp [buildFilesFrom, hp]
      rw [h1, h2]
    · have hl := H f (List.mem_cons_self f rest) hp
      simp only [scanFiles, processFile_unchanged hashFn prev acc f hp hl]
      rw [scanFiles_unchanged hashFn prev rest
        (recordEntry (hashFn f.content) (relOut f) acc)
        (fun g hg hpg => H g (List.mem_cons_of_mem f hg) hpg)]
      have h1 : buildStateFrom hashFn acc.newState (f :: rest)
          = buildStateFrom hashFn
              (ainsert acc.newState (hashFn f.content) (relOut f)) rest := by
        simp [buildStateFrom, hp]
      have h2 : buildFilesFrom acc.files (f :: rest)
          = buildFilesFrom (finsert acc.files (relOut f)) rest := by
        simp [buildFilesFrom, hp]
      rw [h1, h2]
      rfl

lemma pruneDest_keep_all {C : Type} (files : List FPath) :
    ∀ fs : List (FPath × C),
      (∀ e ∈ fs, e.1 = [stateFileName] ∨ e.1 ∈ files) →
      pruneDest files fs = (fs, [])
  | [], _ => rfl
  | e :: rest, h => by
    simp only [pruneDest,
      pruneDest_keep_all files rest (fun x hx => h x (List.mem_cons_of_mem e hx))]
    rw [if_pos (h e (List.mem_cons_self e rest))]

/-- C1 as stated is false: a source tree holding the same content twice
(`x.mp3` and `d/x.mp3`, byte-identical, hence with equal fingerprints) makes
the first run succeed, yet the immediate second run performs a rename —
moving `d/x.mp3` over `x.mp3` at the destination — and so leaves a different
destination tree. -/
theorem C1_idempotence_counterexample :
    dupRun1.err = none
    ∧ dupRun2.err = none
    ∧ dupRun2.actions = [Action.rename ["x.mp3".toList]]
    ∧ dupRun2.world ≠ dupRun1.world := by
  refine ⟨rfl, rfl, ?_, ?_⟩ <;> decide

/-- C1 (amended): provided the source files passing the extension filter have
pairwise distinct content fingerprints (in particular, no two files share the
same content), an immediate second run after a successful run performs no
copy, rename, conversion or removal, and leaves the destination tree and the
persisted state mapping exactly as the first run left them. -/
theorem C1_idempotence_amended {C : Type} (hashFn : C → Str)
    (transcode : C → C) (src : List (SrcFile C)) (w : World C)
    (out1 : RunOut C)
    (hnodup : ((scanPairs hashFn src).map Prod.fst).Nodup)
    (hrun : musyncRun hashFn transcode okOracle src w = out1)
    (hok : out1.err = none) :
    musyncRun hashFn transcode okOracle src out1.world
      = ⟨none, out1.world, out1.newState, []⟩ := by
  subst hrun
  rcases hscan : scanFiles hashFn (w.stateFile.getD []) ⟨w.fs, [], [], [], []⟩ src
    with ⟨oe, acc⟩
  cases oe with
  | some e =>
    have hbad : (musyncRun hashFn transcode okOracle src w).err = some e := by
      simp only [musyncRun, hscan]
    rw [hbad] at hok
    cases hok
  | none =>
    rcases hconv : runConversions transcode okOracle.convertSpawnFails 0
        acc.toConvert acc.fs acc.actions with ⟨oc, fsc, actsc⟩
    cases oc with
    | some e =>
      have hbad : (musyncRun hashFn transcode okOracle src w).err = some e := by
        simp only [musyncRun, hscan, hconv]
      rw [hbad] at hok
      cases hok
    | none =>
      have hff : okOracle.findSpawnFails = false := rfl
      have hrun1 : musyncRun hashFn transcode okOracle src w
          = ⟨none, ⟨(pruneDest acc.files fsc).1, some acc.newState⟩,
             acc.newState, actsc ++ (pruneDest acc.files fsc).2⟩ := by
        simp only [musyncRun, hscan, hconv, hff, Bool.false_eq_true, if_false]
      rw [hrun1]
      show musyncRun hashFn transcode okOracle src
          ⟨(pruneDest acc.files fsc).1, some acc.newState⟩
        = ⟨none, ⟨(pruneDest acc.files fsc).1, some acc.newState⟩,
           acc.newState, []⟩
      have hparts := scanFiles_ok_parts hashFn (w.stateFile.getD []) src
        ⟨w.fs, [], [], [], []⟩ acc hscan
      have hns : acc.newState = buildStateFrom hashFn [] src := hparts.1
      have hfl : acc.files = buildFilesFrom [] src := hparts.2
      have hpairs : buildStateFrom hashFn [] src = scanPairs hashFn src := by
        have h := buildStateFrom_fresh hashFn src [] hnodup (fun k _ => rfl)
        simpa using h
      have hstate2 : ∀ f ∈ src, passes f = true →
          alookup acc.newState (hashFn f.content) = some (relOut f) := by
        intro f hf hpf
        rw [hns, hpairs]
        have hmem : (hashFn f.content, relOut f) ∈ scanPairs hashFn src :=
          List.mem_map_of_mem _ (List.mem_filter.2 ⟨hf, hpf⟩)
        exact alookup_pairs (scanPairs hashFn src) hnodup _ hmem
      have hscan2 : scanFiles hashFn acc.newState
          ⟨(pruneDest acc.files fsc).1, [], [], [], []⟩ src
          = (none, ⟨(pruneDest acc.files fsc).1,
              buildStateFrom hashFn [] src, buildFilesFrom [] src, [], []⟩) :=
        scanFiles_unchanged hashFn acc.newState src _ hstate2
      have hkeep : ∀ e ∈ (pruneDest acc.files fsc).1,
          e.1 = [stateFileName] ∨ e.1 ∈ acc.files := by
        intro e he
        exact ((pruneDest_mem_fst acc.files fsc e.1 e.2).1
          (by rw [Prod.mk.eta]; exact he)).2
      have hprune2 : pruneDest acc.files (pruneDest acc.files fsc).1
          = ((pruneDest acc.files fsc).1, ([] : List Action)) :=
        pruneDest_keep_all acc.files _ hkeep
      simp only [musyncRun, Option.getD_some, hscan2, runConversions, hff,
        Bool.false_eq_true, if_false]
      rw [← hfl, ← hns, hprune2]
      simp

/-- C1 witness for the amended theorem: a one-file source tree, first run
onto an empty destination, second run immediately after. -/
theorem C1_idempotence_amended_witness :
    musyncRun cHash id okOracle oneSrc
        (musyncRun cHash id okOracle oneSrc ⟨[], none⟩).world
      = ⟨none, (musyncRun cHash id okOracle oneSrc ⟨[], none⟩).world,
         (musyncRun cHash id okOracle oneSrc ⟨[], none⟩).newState, []⟩ :=
  C1_idempotence_amended cHash id oneSrc ⟨[], none⟩ _ (by decide) rfl
    (by decide)

/-- C7 witness: a run that aborts during scanning (a rename whose source is
missing) leaves the prior state file untouched. -/
theorem C7_atomicity_amended_witness :
    (musyncRun cHash id okOracle [⟨[], "x.mp3".toList, 0⟩]
        ⟨[], some [(cHash 0, ["y.mp3".toList])]⟩).world.stateFile
      = (⟨[], some [(cHash 0, ["y.mp3".toList])]⟩ : World Nat).stateFile :=
  (C7_atomicity_amended cHash id okOracle [⟨[], "x.mp3".toList, 0⟩]
      ⟨[], some [(cHash 0, ["y.mp3".toList])]⟩).1
    MErr.renameMissing (by decide) (by decide)

end Musync
